import Mathlib

/-!
Verification of the core algorithms of the road-search-engine repository.

Texts are modelled as `List Char` (Python `str`), scores as `ℚ` (Python
`float` arithmetic over the exactly-representable operations the code uses),
and each Python function is translated to a Lean definition of the same name.
-/

namespace RoadSearch

/-! ## Definitions: shallow embedding of the source -/

/-- Python `str.lower` applied to one character.  The repository's texts are
Korean/ASCII; Hangul syllables are unaffected by lowercasing, so the ASCII
rule `A-Z ↦ a-z` is the relevant part of Python's `str.lower`. -/
def lowerChar (c : Char) : Char :=
  if 65 ≤ c.toNat ∧ c.toNat ≤ 90 then Char.ofNat (c.toNat + 32) else c

/-- `text.lower()` -/
def lower (cs : List Char) : List Char := cs.map lowerChar

/-- Python substring test `needle in hay`. -/
def containsSub (needle hay : List Char) : Bool := decide (needle <:+: hay)

/-- Case-insensitive occurrence check `keyword.lower() in text.lower()`,
used throughout `fastapi_server.py` and `rag/vector_database.py`. -/
def occursIn (kw text : List Char) : Bool := containsSub (lower kw) (lower text)

/-- All start positions at which `needle` occurs in `hay`; this is the result
of the `while True: pos = text_lower.find(keyword_lower, start); ...;
start = pos + 1` loop of `extract_text_by_characters` (`fastapi_server.py`
lines 73-81), which advances by one character after each hit and therefore
collects every (also overlapping) occurrence position in increasing order. -/
def occPositions (needle hay : List Char) : List Nat :=
  (List.range (hay.length + 1)).filter (fun i => needle.isPrefixOf (hay.drop i))

/-- The `keyword_positions` list of `(pos, pos + len(keyword))` pairs built by
`extract_text_by_characters` (lines 69-81). -/
def keywordPositions (text : List Char) (keywords : List (List Char)) : List (Nat × Nat) :=
  keywords.flatMap fun kw =>
    (occPositions (lower kw) (lower text)).map fun p => (p, p + kw.length)

/-- Python `min` over a non-empty list (`0` as a junk value on `[]`). -/
def listMin : List Nat → Nat
  | [] => 0
  | x :: xs => xs.foldl Nat.min x

/-- Python `max` over a non-empty list (`0` as a junk value on `[]`). -/
def listMax : List Nat → Nat
  | [] => 0
  | x :: xs => xs.foldl Nat.max x

/-- The literal `"..."` ellipsis marker. -/
def dots : List Char := ['.', '.', '.']

/-- `min(pos for pos, _ in keyword_positions)` (line 87). -/
def minStart (text : List Char) (keywords : List (List Char)) : Nat :=
  listMin ((keywordPositions text keywords).map Prod.fst)

/-- `max(pos for _, pos in keyword_positions)` (line 88). -/
def maxEnd (text : List Char) (keywords : List (List Char)) : Nat :=
  listMax ((keywordPositions text keywords).map Prod.snd)

/-- The `[start_pos, end_pos)` window at a given radius (lines 87-88 and
103-104; the same formula is used for the initial and for the doubled
radius).  `Nat` subtraction models the `max(0, ...)` clamp. -/
def windowAt (text : List Char) (keywords : List (List Char)) (r : Nat) : Nat × Nat :=
  (minStart text keywords - r, min text.length (maxEnd text keywords + r))

/-- `extracted = text[start_pos:end_pos]` for the radius-`r` window. -/
def windowSlice (text : List Char) (keywords : List (List Char)) (r : Nat) : List Char :=
  (text.take (windowAt text keywords r).2).drop (windowAt text keywords r).1

/-- The final `[start_pos, end_pos)` window chosen by
`extract_text_by_characters` (lines 86-105): the radius-window around the
keyword occurrences, recomputed once with the doubled radius when the
windowed substring does not contain every keyword (lines 92-105). -/
def finalWindow (text : List Char) (keywords : List (List Char)) (r : Nat) : Nat × Nat :=
  if keywords.countP (fun kw => occursIn kw (windowSlice text keywords r)) <
      keywords.length
  then windowAt text keywords (2 * r)
  else windowAt text keywords r

/-- Lines 107-111: slice the window out of `text` and add the leading/trailing
`"..."` markers. -/
def decorate (text : List Char) (s e : Nat) : List Char :=
  if e < text.length
  then (if 0 < s then dots ++ (text.take e).drop s else (text.take e).drop s) ++ dots
  else (if 0 < s then dots ++ (text.take e).drop s else (text.take e).drop s)

/-- `extract_text_by_characters(text, keywords, char_radius)`
(`fastapi_server.py` lines 54-113). -/
def extract_text_by_characters (text : List Char) (keywords : List (List Char))
    (char_radius : Nat) : List Char :=
  if text = [] ∨ keywords = [] then text.take 500
  else if keywordPositions text keywords = [] then text.take 500
  else decorate text (finalWindow text keywords char_radius).1
    (finalWindow text keywords char_radius).2

/-- Python `round(q, 1)`: round to one decimal place.  Exact representational
ties are resolved here with the round-half-up convention of Mathlib's
`round`; none of the verified statements depends on the tie direction. -/
def round1 (q : ℚ) : ℚ := (round (10 * q) : ℤ) / 10

/-- `calculate_keyword_score(extracted_text, input_keywords)`
(`fastapi_server.py` lines 115-137). -/
def calculate_keyword_score (extracted_text : List Char)
    (input_keywords : List (List Char)) : ℚ :=
  if extracted_text = [] ∨ input_keywords = [] then 0
  else round1
    (((input_keywords.countP fun kw => occursIn kw extracted_text : Nat) : ℚ) /
      (input_keywords.length : ℚ) * 100)

/-- The scorer as claim C6 literally words it: the numerator counts
*distinct* input keywords, while the denominator is the raw list length. -/
def calculateKeywordScoreClaim (w : List Char) (ks : List (List Char)) : ℚ :=
  if w = [] ∨ ks = [] then 0
  else round1 (100 * ((ks.dedup.countP fun kw => occursIn kw w : Nat) : ℚ) /
    (ks.length : ℚ))

/-- The character-granularity extractor as claim C4 words it: window
`[min(start) - radius, max(end) + radius]` clamped to `[0, len(text)]`,
recomputed exactly once with a doubled radius when fewer than all *distinct*
keywords appear in the windowed substring, then `"..."` prefixed iff the
final window does not start at `0` and suffixed iff it does not end at
`len(text)`. -/
def extractCharSpecC4 (text : List Char) (keywords : List (List Char))
    (radius : Nat) : List Char :=
  (if (if keywords.dedup.countP (fun kw => occursIn kw (windowSlice text keywords radius)) <
          keywords.dedup.length
       then windowAt text keywords (2 * radius)
       else windowAt text keywords radius).1 ≠ 0 then dots else []) ++
  ((text.take
      (if keywords.dedup.countP (fun kw => occursIn kw (windowSlice text keywords radius)) <
          keywords.dedup.length
       then windowAt text keywords (2 * radius)
       else windowAt text keywords radius).2).drop
    (if keywords.dedup.countP (fun kw => occursIn kw (windowSlice text keywords radius)) <
        keywords.dedup.length
     then windowAt text keywords (2 * radius)
     else windowAt text keywords radius).1) ++
  (if (if keywords.dedup.countP (fun kw => occursIn kw (windowSlice text keywords radius)) <
          keywords.dedup.length
       then windowAt text keywords (2 * radius)
       else windowAt text keywords radius).2 ≠ text.length then dots else [])

/-- The `keyword_count` of lines 92-100: how many of the input keywords occur
in the radius-`r` window slice. -/
def coveredCount (text : List Char) (keywords : List (List Char)) (r : Nat) : Nat :=
  keywords.countP fun kw => occursIn kw (windowSlice text keywords r)

/-- The keyword count over the *final* (possibly once-widened) window. -/
def finalCoveredCount (text : List Char) (keywords : List (List Char)) (r : Nat) : Nat :=
  if coveredCount text keywords r < keywords.length
  then coveredCount text keywords (2 * r)
  else coveredCount text keywords r

/-- A result of `VectorDatabase.keyword_search` (lines 157-164).  The opaque
`metadata` dictionary is never inspected by the verified algorithms and is
omitted. -/
structure KeywordMatch where
  match_score : ℚ
  matched_keywords : List (List Char)
  document : List Char
  vector_id : Nat
deriving DecidableEq

/-- The comparison realised by
`results.sort(key=lambda x: (x['match_score'], random.random()), reverse=True)`
(lines 166-168): a stable descending sort on the pair
`(match_score, random jitter)`.  The per-element `random.random()` draws are
modelled by the function `jitter` of the element's unique `vector_id`;
`keywordSortLe a b` holds when `a` may be placed before `b`. -/
def keywordSortLe (jitter : Nat → ℚ) (a b : KeywordMatch) : Bool :=
  decide (b.match_score < a.match_score ∨
    (b.match_score = a.match_score ∧ jitter b.vector_id ≤ jitter a.vector_id))

/-- The unsorted `results` list built by `keyword_search` (lines 136-164):
one entry per document that passes the matching policy, in corpus order,
with `vector_id = i` the document's index. -/
def keywordSearchResults (documents keywords : List (List Char))
    (match_all : Bool) : List KeywordMatch :=
  documents.enum.filterMap fun p =>
    if match_all then
      if (keywords.filter fun kw => occursIn kw p.2).length = keywords.length then
        some ⟨1, keywords.filter fun kw => occursIn kw p.2, p.2, p.1⟩
      else none
    else
      if (keywords.filter fun kw => occursIn kw p.2) ≠ [] then
        some ⟨((keywords.filter fun kw => occursIn kw p.2).length : ℚ) /
            (keywords.length : ℚ),
          keywords.filter fun kw => occursIn kw p.2, p.2, p.1⟩
      else none

/-- `VectorDatabase.keyword_search(keywords, match_all, k)`
(`rag/vector_database.py` lines 130-174): score the corpus, sort descending
by `(match_score, random jitter)`, return the first `k`. -/
def keyword_search (documents keywords : List (List Char)) (match_all : Bool)
    (k : Nat) (jitter : Nat → ℚ) : List KeywordMatch :=
  ((keywordSearchResults documents keywords match_all).mergeSort
    (keywordSortLe jitter)).take k

/-- A vector-similarity result as consumed by `hybrid_search`
(lines 109-117); produced by the external FAISS index. -/
structure VectorMatch where
  similarity : ℚ
  document : List Char
  vector_id : Nat
deriving DecidableEq

/-- One entry of the `combined_results` dictionary / `final_results` list of
`hybrid_search` (lines 194-230).  `final_score` is written only by the
finalisation step (line 229); during the merge it carries the placeholder
`0`. -/
structure HybridMatch where
  vector_score : ℚ
  keyword_score : ℚ
  document : List Char
  vector_id : Nat
  matched_keywords : List (List Char)
  final_score : ℚ
deriving DecidableEq

/-- The entry seeded from a vector result (lines 197-206). -/
def seedEntry (vector_weight : ℚ) (r : VectorMatch) : HybridMatch :=
  ⟨r.similarity * vector_weight, 0, r.document, r.vector_id, [], 0⟩

/-- Python dictionary assignment `combined_results[vector_id] = entry`:
replace in place when the key exists, append otherwise. -/
def dictSet (m : List HybridMatch) (e : HybridMatch) : List HybridMatch :=
  if m.any fun x => x.vector_id == e.vector_id
  then m.map fun x => if x.vector_id == e.vector_id then e else x
  else m ++ [e]

/-- Lines 213-215: overwrite the existing entry's `keyword_score` and
`matched_keywords`. -/
def kwUpdate (vector_weight : ℚ) (r : KeywordMatch) (e : HybridMatch) : HybridMatch :=
  { e with keyword_score := r.match_score * (1 - vector_weight),
           matched_keywords := r.matched_keywords }

/-- Lines 217-224: the keyword-only entry with `vector_score = 0`. -/
def kwEntryNew (vector_weight : ℚ) (r : KeywordMatch) : HybridMatch :=
  ⟨0, r.match_score * (1 - vector_weight), r.document, r.vector_id,
    r.matched_keywords, 0⟩

/-- Processing of one keyword result (lines 209-224): update the existing
entry, or insert a keyword-only entry. -/
def applyKeyword (vector_weight : ℚ) (m : List HybridMatch) (r : KeywordMatch) :
    List HybridMatch :=
  if m.any fun x => x.vector_id == r.vector_id then
    m.map fun x => if x.vector_id == r.vector_id then kwUpdate vector_weight r x else x
  else
    m ++ [kwEntryNew vector_weight r]

/-- Line 229: `result['final_score'] = result['vector_score'] + result['keyword_score']`. -/
def finalizeEntry (e : HybridMatch) : HybridMatch :=
  { e with final_score := e.vector_score + e.keyword_score }

/-- `final_results.sort(key=lambda x: x['final_score'], reverse=True)`
(line 232): stable descending by `final_score`. -/
def hybridSortLe (a b : HybridMatch) : Bool := decide (b.final_score ≤ a.final_score)

/-- The result-fusion core of `hybrid_search` (lines 193-232): seed entries
from the vector results, merge the keyword results, finalise scores, sort
descending by `final_score`. -/
def fuse (vector_results : List VectorMatch) (keyword_results : List KeywordMatch)
    (vector_weight : ℚ) : List HybridMatch :=
  ((keyword_results.foldl (applyKeyword vector_weight)
      (vector_results.foldl (fun m r => dictSet m (seedEntry vector_weight r)) [])).map
    finalizeEntry).mergeSort hybridSortLe

/-- `VectorDatabase.hybrid_search(query_embedding, keywords, k, vector_weight)`
(lines 180-238).  The FAISS vector search is external; its result list is a
parameter.  The keyword side is obtained by
`self.keyword_search(keywords, match_all=False)`, i.e. with the *default*
limit `k = 10` regardless of the requested `k`; the fused list is truncated
to `k` entries. -/
def hybrid_search (vector_results : List VectorMatch)
    (documents keywords : List (List Char)) (k : Nat) (vector_weight : ℚ)
    (jitter : Nat → ℚ) : List HybridMatch :=
  (fuse vector_results (keyword_search documents keywords false 10 jitter)
    vector_weight).take k

def idsOf (m : List HybridMatch) : List Nat := m.map HybridMatch.vector_id

/-- A PyMuPDF rectangle `(x0, y0, x1, y1)` in layout units. -/
structure Rect where
  x0 : ℚ
  y0 : ℚ
  x1 : ℚ
  y1 : ℚ
deriving DecidableEq

/-- Lines 702-708: a new instance is a duplicate when some already-accepted
instance's top-left corner is within 5 layout units in both axes. -/
def isDuplicate (unique_instances : List Rect) (inst : Rect) : Bool :=
  unique_instances.any fun existing =>
    decide (|inst.x0 - existing.x0| < 5 ∧ |inst.y0 - existing.y0| < 5)

/-- The duplicate-removal loop of `smart_keyword_search` (lines 699-712):
process occurrences in arrival order, keeping an occurrence only when it is
not a near-duplicate of an already-kept one. -/
def dedupe (occurrences : List Rect) : List Rect :=
  occurrences.foldl
    (fun acc inst => if isDuplicate acc inst then acc else acc ++ [inst]) []

/-- Python's `\s` whitespace class, at the ASCII characters that occur in the
corpus. -/
def isPySpace (c : Char) : Bool :=
  c = ' ' ∨ c = '\t' ∨ c = '\n' ∨ c = '\r' ∨ c = '\x0B' ∨ c = '\x0C'

/-- `re.sub(r'\s+', ' ', s.strip())` (lines 155 and 164): drop leading and
trailing whitespace and collapse interior whitespace runs to single spaces
(equivalently Python's `" ".join(s.split())`). -/
def normalizeWs (cs : List Char) : List Char :=
  List.intercalate [' '] ((cs.splitOnP isPySpace).filter fun f => f ≠ [])

/-- The lookbehind class `[다음함됨슴며]` of the sentence-split pattern
(line 158). -/
def sentenceEnders : List Char := ['다', '음', '함', '됨', '슴', '며']

/-- `[가-힣]`: a Hangul syllable. -/
def isHangul (c : Char) : Bool := 0xAC00 ≤ c.toNat ∧ c.toNat ≤ 0xD7A3

/-- `[가-힣A-Z\n]`, the class closing the lookahead of line 158. -/
def lookaheadClass (c : Char) : Bool :=
  isHangul c || ('A' ≤ c ∧ c ≤ 'Z' : Bool) || (c = '\n' : Bool)

/-- The lookahead `(?=\s*[가-힣A-Z\n])`: after skipping whitespace (with
backtracking), a character of the class follows. -/
def lookaheadOk : List Char → Bool
  | [] => false
  | c :: rest => lookaheadClass c || (isPySpace c && lookaheadOk rest)

/-- Scan for `re.split` with the pattern of line 158: a consuming boundary at
a `'.'` preceded by a sentence-ender and followed by the lookahead, and a
zero-width boundary after `'!'`/`'?'` when the lookahead holds.  `prev` is
the character before the scan position; `acc` the current piece, reversed. -/
def splitSentencesAux (prev : Option Char) :
    List Char → List Char → List (List Char)
  | [], acc => [acc.reverse]
  | c :: rest, acc =>
    if (c == '.') && (match prev with
        | some p => sentenceEnders.contains p
        | none => false) && lookaheadOk rest then
      acc.reverse :: splitSentencesAux (some c) rest []
    else if (match prev with
        | some p => p == '!' || p == '?'
        | none => false) && lookaheadOk (c :: rest) then
      acc.reverse :: splitSentencesAux (some c) rest [c]
    else
      splitSentencesAux (some c) rest (c :: acc)

/-- `re.split(sentence_pattern, cleaned_text)` (line 159). -/
def splitSentences (cs : List Char) : List (List Char) :=
  splitSentencesAux none cs []

/-- Steps 1-3 of `extract_sentences_with_keywords` (lines 154-166): clean the
text, split it into sentences, re-normalize each sentence, and keep only the
non-empty ones of length above 2. -/
def processedSentences (text : List Char) : List (List Char) :=
  ((splitSentences (normalizeWs text)).map normalizeWs).filter
    fun s => decide (s ≠ []) && decide (2 < s.length)

/-- Step 4 (lines 171-178): the `(index, sentence)` pairs containing at least
one keyword case-insensitively. -/
def keywordSentences (text : List Char) (keywords : List (List Char)) :
    List (Nat × List Char) :=
  (processedSentences text).enum.filter
    fun p => keywords.any fun kw => occursIn kw p.2

/-- Steps 5-6 (lines 184-193): the sorted union of the context ranges
`[idx - context, idx + context]` (clamped) around each matching index. -/
def resultIndices (text : List Char) (keywords : List (List Char))
    (context_sentences : Nat) : List Nat :=
  (List.range (processedSentences text).length).filter fun i =>
    (keywordSentences text keywords).any fun p =>
      decide (p.1 - context_sentences ≤ i) && decide (i < p.1 + context_sentences + 1)

/-- Step 6 (lines 196-200): emit the selected sentences in index order with a
`"..."` marker wherever consecutive selected indices leave a gap. -/
def gapJoin (processed : List (List Char)) :
    List Nat → Option Nat → List (List Char)
  | [], _ => []
  | idx :: rest, prev =>
    (match prev with
     | some p => if p + 1 < idx then [dots, processed.getD idx []]
                 else [processed.getD idx []]
     | none => [processed.getD idx []]) ++ gapJoin processed rest (some idx)

/-- Step 7 (lines 202-204): join with single spaces and re-normalize. -/
def sentenceResult (text : List Char) (keywords : List (List Char))
    (context_sentences : Nat) : List Char :=
  normalizeWs (List.intercalate [' ']
    (gapJoin (processedSentences text)
      (resultIndices text keywords context_sentences) none))

/-- `extract_sentences_with_keywords(text, keywords, context_sentences)`
(`fastapi_server.py` lines 139-206). -/
def extract_sentences_with_keywords (text : List Char)
    (keywords : List (List Char)) (context_sentences : Nat) : List Char :=
  if text = [] ∨ keywords = [] then text
  else if processedSentences text = [] then text
  else if keywordSentences text keywords = [] then
    (if 500 < (normalizeWs text).length then (normalizeWs text).take 500 ++ dots
     else normalizeWs text)
  else sentenceResult text keywords context_sentences

/-! ## Theorems -/

theorem isInfix_iff_exists_drop {n h : List Char} :
    n <:+: h ↔ ∃ i, i ≤ h.length ∧ n <+: h.drop i := by
  constructor
  · rintro ⟨s, t, rfl⟩
    refine ⟨s.length, by simp, ?_⟩
    rw [List.append_assoc, List.drop_left]
    exact ⟨t, rfl⟩
  · rintro ⟨i, -, hp⟩
    exact hp.isInfix.trans (List.drop_suffix i h).isInfix

theorem occPositions_eq_nil_iff {n h : List Char} :
    occPositions n h = [] ↔ ¬ n <:+: h := by
  unfold occPositions
  rw [List.filter_eq_nil_iff, isInfix_iff_exists_drop]
  constructor
  · rintro hall ⟨i, hi, hp⟩
    exact absurd (List.isPrefixOf_iff_prefix.mpr hp)
      (by simpa using hall i (List.mem_range.mpr (Nat.lt_succ_of_le hi)))
  · intro hno i hi hp
    exact hno ⟨i, Nat.le_of_lt_succ (List.mem_range.mp hi), List.isPrefixOf_iff_prefix.mp hp⟩

theorem keywordPositions_eq_nil_iff {text : List Char} {keywords : List (List Char)} :
    keywordPositions text keywords = [] ↔
      ∀ kw ∈ keywords, occursIn kw text = false := by
  unfold keywordPositions
  rw [List.flatMap_eq_nil_iff]
  constructor
  · intro hall kw hkw
    have := hall kw hkw
    rw [List.map_eq_nil_iff] at this
    simp only [occursIn, containsSub, decide_eq_false_iff_not]
    exact occPositions_eq_nil_iff.mp this
  · intro hall kw hkw
    rw [List.map_eq_nil_iff, occPositions_eq_nil_iff]
    have := hall kw hkw
    simpa [occursIn, containsSub] using this

/-- C3: if the keyword list is empty or no keyword occurs case-insensitively
in the text, `extract_text_by_characters` returns exactly the first 500
characters of the text (the whole text when shorter) with no ellipsis; being
a total function it never raises. -/
theorem extract_chars_fallback (text : List Char) (keywords : List (List Char))
    (r : Nat)
    (h : keywords = [] ∨ ∀ kw ∈ keywords, occursIn kw text = false) :
    extract_text_by_characters text keywords r = text.take 500 := by
  unfold extract_text_by_characters
  rcases h with h | h
  · simp [h]
  · rcases em (text = [] ∨ keywords = []) with he | he
    · simp [he]
    · rw [if_neg he, if_pos (keywordPositions_eq_nil_iff.mpr h)]

/-- Witness for C3 at a concrete input: `"z"` does not occur in `"abc"`. -/
theorem extract_chars_fallback_witness :
    (∀ kw ∈ [['z']], occursIn kw ['a', 'b', 'c'] = false) ∧
      extract_text_by_characters ['a', 'b', 'c'] [['z']] 5 = ['a', 'b', 'c'] := by
  refine ⟨by decide, ?_⟩
  have := extract_chars_fallback ['a', 'b', 'c'] [['z']] 5 (Or.inr (by decide))
  simpa using this

theorem round1_mono {a b : ℚ} (h : a ≤ b) : round1 a ≤ round1 b := by
  unfold round1
  have h1 : round (10 * a) ≤ round (10 * b) := by
    rw [round_eq, round_eq]
    exact Int.floor_mono (by linarith)
  have h2 : ((round (10 * a) : ℤ) : ℚ) ≤ ((round (10 * b) : ℤ) : ℚ) := by exact_mod_cast h1
  linarith

theorem round1_zero : round1 0 = 0 := by norm_num [round1]

theorem round1_hundred : round1 100 = 100 := by norm_num [round1, round_eq]

/-- C6 (amended): `calculate_keyword_score` equals
`round1 (100 * (count, with multiplicity, of input-keyword entries occurring
case-insensitively in the window) / len(keywords))`, is always in
`[0, 100]`, and is `0` when the window or the keyword list is empty. -/
theorem calculate_keyword_score_spec (w : List Char) (ks : List (List Char)) :
    calculate_keyword_score w ks =
      (if w = [] ∨ ks = [] then 0
       else round1 (100 * ((ks.countP fun kw => occursIn kw w : Nat) : ℚ) /
          (ks.length : ℚ))) ∧
    0 ≤ calculate_keyword_score w ks ∧ calculate_keyword_score w ks ≤ 100 := by
  have hform : calculate_keyword_score w ks =
      (if w = [] ∨ ks = [] then 0
       else round1 (100 * ((ks.countP fun kw => occursIn kw w : Nat) : ℚ) /
          (ks.length : ℚ))) := by
    unfold calculate_keyword_score
    rcases em (w = [] ∨ ks = []) with he | he
    · simp [he]
    · rw [if_neg he, if_neg he]
      congr 1
      ring
  refine ⟨hform, ?_, ?_⟩ <;> rw [hform] <;> rcases em (w = [] ∨ ks = []) with he | he
  · simp [he]
  · rw [if_neg he]
    calc (0 : ℚ) = round1 0 := round1_zero.symm
      _ ≤ _ := round1_mono (by positivity)
  · simp [he]
  · rw [if_neg he]
    have hn : 0 < (ks.length : ℚ) := by
      have h1 : ks ≠ [] := fun h => he (Or.inr h)
      have h2 : 0 < ks.length := List.length_pos.mpr h1
      exact_mod_cast h2
    have hcq : ((ks.countP fun kw => occursIn kw w : Nat) : ℚ) ≤ (ks.length : ℚ) := by
      exact_mod_cast List.countP_le_length (fun kw => occursIn kw w)
    calc round1 _ ≤ round1 100 := by
          refine round1_mono ?_
          rw [mul_div_assoc]
          have h3 : ((ks.countP fun kw => occursIn kw w : Nat) : ℚ) /
              (ks.length : ℚ) ≤ 1 := (div_le_one hn).mpr hcq
          linarith
      _ = 100 := round1_hundred

/-- Counterexample to C6 as stated: with the duplicated keyword list
`["a", "a"]` and window `"a"`, the code returns `100.0` whereas the claimed
distinct-count formula yields `50.0`. -/
theorem calculate_keyword_score_counterexample :
    calculate_keyword_score ['a'] [['a'], ['a']] = 100 ∧
      calculateKeywordScoreClaim ['a'] [['a'], ['a']] = 50 ∧
      calculate_keyword_score ['a'] [['a'], ['a']] ≠
        calculateKeywordScoreClaim ['a'] [['a'], ['a']] := by
  have hc1 : ([['a'], ['a']].countP fun kw => occursIn kw ['a']) = 2 := by decide
  have hc2 : (([['a'], ['a']].dedup).countP fun kw => occursIn kw ['a']) = 1 := by
    decide
  have h1 : calculate_keyword_score ['a'] [['a'], ['a']] = 100 := by
    unfold calculate_keyword_score
    rw [if_neg (by simp), hc1]
    norm_num [round1, round_eq]
  have h2 : calculateKeywordScoreClaim ['a'] [['a'], ['a']] = 50 := by
    unfold calculateKeywordScoreClaim
    rw [if_neg (by simp), hc2]
    norm_num [round1, round_eq]
  exact ⟨h1, h2, by rw [h1, h2]; norm_num⟩

theorem listMin_le_of_mem {l : List Nat} {x : Nat} (hx : x ∈ l) : listMin l ≤ x := by
  rcases l with - | ⟨a, as⟩
  · cases hx
  · show as.foldl Nat.min a ≤ x
    have key : ∀ (as : List Nat) (a : Nat),
        as.foldl Nat.min a ≤ a ∧ ∀ y ∈ as, as.foldl Nat.min a ≤ y := by
      intro as
      induction as with
      | nil => intro a; exact ⟨le_refl a, by simp⟩
      | cons b bs ih =>
          intro a
          obtain ⟨h1, h2⟩ := ih (Nat.min a b)
          refine ⟨le_trans h1 (Nat.min_le_left a b), ?_⟩
          intro y hy
          rcases List.mem_cons.mp hy with rfl | hy
          · exact le_trans h1 (Nat.min_le_right a _)
          · exact h2 y hy
    rcases List.mem_cons.mp hx with rfl | hx
    · exact (key as x).1
    · exact (key as a).2 x hx

theorem mem_keywordPositions_nil {keywords : List (List Char)} {p : Nat × Nat}
    (hp : p ∈ keywordPositions [] keywords) : p = (0, 0) := by
  unfold keywordPositions at hp
  rw [List.mem_flatMap] at hp
  obtain ⟨kw, -, hm⟩ := hp
  rw [List.mem_map] at hm
  obtain ⟨i, hi, rfl⟩ := hm
  unfold occPositions at hi
  rw [List.mem_filter] at hi
  obtain ⟨hrange, hpref⟩ := hi
  have hlow : lower ([] : List Char) = [] := rfl
  rw [hlow] at hrange hpref
  have hi0 : i = 0 := by simpa using hrange
  subst hi0
  have h1 : lower kw <+: [] := List.isPrefixOf_iff_prefix.mp hpref
  have hkl : lower kw = [] := List.prefix_nil.mp h1
  have h2 : kw = [] := by
    have h3 := congrArg List.length hkl
    exact List.eq_nil_of_length_eq_zero (by simpa [lower] using h3)
  simp [h2]

theorem countP_dedup_lt_iff {ks : List (List Char)} {p : List Char → Bool} :
    (ks.dedup.countP p < ks.dedup.length) ↔ (ks.countP p < ks.length) := by
  have h1 : (ks.dedup.countP p = ks.dedup.length) ↔ (ks.countP p = ks.length) := by
    rw [List.countP_eq_length, List.countP_eq_length]
    constructor
    · intro h a ha; exact h a (List.mem_dedup.mpr ha)
    · intro h a ha; exact h a (List.mem_dedup.mp ha)
  constructor
  · intro h
    exact lt_of_le_of_ne (List.countP_le_length p)
      (fun he => absurd (h1.mpr he) (ne_of_lt h))
  · intro h
    exact lt_of_le_of_ne (List.countP_le_length p)
      (fun he => absurd (h1.mp he) (ne_of_lt h))

theorem finalWindow_snd_le (text : List Char) (keywords : List (List Char)) (r : Nat) :
    (finalWindow text keywords r).2 ≤ text.length := by
  unfold finalWindow
  split <;> exact Nat.min_le_left _ _

theorem decorate_eq (text : List Char) (s e : Nat) (he : e ≤ text.length) :
    decorate text s e =
      (if s ≠ 0 then dots else []) ++ ((text.take e).drop s) ++
        (if e ≠ text.length then dots else []) := by
  unfold decorate
  have h1 : (0 < s) ↔ (s ≠ 0) := Nat.pos_iff_ne_zero
  have h2 : (e < text.length) ↔ (e ≠ text.length) :=
    ⟨ne_of_lt, fun h => lt_of_le_of_ne he h⟩
  by_cases hs : s ≠ 0 <;> by_cases hel : e ≠ text.length <;>
    simp [h1, h2, hs, hel, List.append_assoc]

/-- C4: on every text with at least one keyword occurrence the code's
extraction agrees with the claim's window/widening/ellipsis description. -/
theorem extract_chars_window_spec (text : List Char) (keywords : List (List Char))
    (r : Nat) (h : keywordPositions text keywords ≠ []) :
    extract_text_by_characters text keywords r = extractCharSpecC4 text keywords r := by
  have hkw : keywords ≠ [] := by
    intro hk
    exact h (by simp [keywordPositions, hk])
  have hwin : finalWindow text keywords r =
      (if keywords.dedup.countP (fun kw => occursIn kw (windowSlice text keywords r)) <
          keywords.dedup.length
       then windowAt text keywords (2 * r)
       else windowAt text keywords r) := by
    unfold finalWindow
    rw [if_congr countP_dedup_lt_iff rfl rfl]
  rcases em (text = []) with htext | htext
  · subst htext
    have hmin : minStart [] keywords = 0 := by
      obtain ⟨p, hp⟩ := List.exists_mem_of_ne_nil _ h
      have hm : p.1 ∈ (keywordPositions [] keywords).map Prod.fst :=
        List.mem_map.mpr ⟨p, hp, rfl⟩
      have h0 : p.1 = 0 := by rw [mem_keywordPositions_nil hp]
      exact Nat.le_zero.mp (h0 ▸ listMin_le_of_mem hm)
    unfold extract_text_by_characters extractCharSpecC4
    rw [if_pos (Or.inl rfl)]
    unfold windowAt
    simp [hmin, Nat.zero_sub]
  · unfold extract_text_by_characters
    rw [if_neg (by simp [htext, hkw]), if_neg h, hwin, decorate_eq]
    · unfold extractCharSpecC4
      rfl
    · rw [← hwin]
      exact finalWindow_snd_le text keywords r

/-- Witness for C4 at a concrete input: `"world"` occurs in `"hello world"`. -/
theorem extract_chars_window_spec_witness :
    keywordPositions ['h','e','l','l','o',' ','w','o','r','l','d']
        [['w','o','r','l','d']] ≠ [] ∧
      extract_text_by_characters ['h','e','l','l','o',' ','w','o','r','l','d']
          [['w','o','r','l','d']] 3 =
        extractCharSpecC4 ['h','e','l','l','o',' ','w','o','r','l','d']
          [['w','o','r','l','d']] 3 :=
  ⟨by decide, extract_chars_window_spec _ _ _ (by decide)⟩

theorem slice_infix_slice {l : List Char} {s s' e e' : Nat} (hs : s' ≤ s)
    (he : e ≤ e') : (l.take e).drop s <:+: (l.take e').drop s' := by
  have key : (l.take e).drop s =
      ((((l.take e').drop s').drop (s - s')).take (e - s)) := by
    calc (l.take e).drop s
        = ((l.take e').take e).drop s := by
          rw [List.take_take, Nat.min_eq_left he]
      _ = ((l.take e').drop s).take (e - s) := by rw [List.drop_take]
      _ = (((l.take e').drop s').drop (s - s')).take (e - s) := by
          rw [List.drop_drop, Nat.add_sub_cancel' hs]
  rw [key]
  exact List.IsInfix.trans
    (List.IsPrefix.isInfix (List.take_prefix _ _))
    (List.IsSuffix.isInfix (List.drop_suffix _ _))

theorem lower_append (a b : List Char) : lower (a ++ b) = lower a ++ lower b :=
  List.map_append lowerChar a b

theorem lowerChar_eq_dot {c : Char} (h : lowerChar c = '.') : c = '.' := by
  unfold lowerChar at h
  split at h
  · next hc =>
      exfalso
      obtain ⟨h1, h2⟩ := hc
      generalize hgen : c.toNat = m at h1 h2 h
      interval_cases m <;> exact absurd h (by decide)
  · exact h

theorem dot_not_mem_lower {kw : List Char} (h : ('.' : Char) ∉ kw) :
    ('.' : Char) ∉ lower kw := by
  intro hc
  rw [lower, List.mem_map] at hc
  obtain ⟨x, hx, hxe⟩ := hc
  exact h (lowerChar_eq_dot hxe ▸ hx)

theorem lower_all_dots {d : List Char} (hd : ∀ c ∈ d, c = '.') :
    ∀ c ∈ lower d, c = '.' := by
  intro c hc
  rw [lower, List.mem_map] at hc
  obtain ⟨x, hx, rfl⟩ := hc
  rw [hd x hx]
  decide

theorem prefix_cons_dot {X rest n : List Char} (hX : X ≠ [])
    (hdX : ∀ c ∈ X, c = '.') (hn : ('.' : Char) ∉ n) (hne : n ≠ [])
    (hp : n <+: X ++ rest) : False := by
  rcases X with - | ⟨x, X'⟩
  · exact hX rfl
  rcases n with - | ⟨c, n'⟩
  · exact hne rfl
  rw [List.cons_append, List.cons_prefix_cons] at hp
  have hc : c = '.' := hp.1.trans (hdX x (List.mem_cons_self x X'))
  refine hn ?_
  rw [← hc]
  exact List.mem_cons_self _ _

theorem prefix_append_dots {p a d : List Char} (hd : ∀ c ∈ d, c = '.')
    (hp : ('.' : Char) ∉ p) (h : p <+: a ++ d) : p <+: a := by
  have hEq : p = (a ++ d).take p.length := List.prefix_iff_eq_take.mp h
  rw [List.take_append_eq_append_take] at hEq
  rcases em (p.length ≤ a.length) with hle | hgt
  · rw [Nat.sub_eq_zero_of_le hle] at hEq
    simp only [List.take_zero, List.append_nil] at hEq
    rw [hEq]
    exact List.take_prefix _ _
  · rcases em (d = []) with rfl | hd0
    · simp only [List.take_nil, List.append_nil] at hEq
      rw [hEq]
      exact List.take_prefix _ _
    · exfalso
      have hk : 0 < p.length - a.length := by omega
      have hlen : 0 < (d.take (p.length - a.length)).length := by
        rw [List.length_take]
        have hdl : 0 < d.length := List.length_pos.mpr hd0
        omega
      obtain ⟨c, hc⟩ := List.exists_mem_of_ne_nil _ (List.length_pos.mp hlen)
      have hcd : c ∈ d := List.take_subset _ _ hc
      have hcp : c ∈ p := by
        rw [hEq]
        exact List.mem_append_right _ hc
      exact hp (hd c hcd ▸ hcp)

theorem infix_dots_elim {n w d1 d2 : List Char}
    (hd1 : ∀ c ∈ d1, c = '.') (hd2 : ∀ c ∈ d2, c = '.')
    (hn : ('.' : Char) ∉ n) (h : n <:+: d1 ++ (w ++ d2)) : n <:+: w := by
  rcases em (n = []) with rfl | hne
  · exact List.nil_infix
  obtain ⟨i, -, hp⟩ := isInfix_iff_exists_drop.mp h
  rw [List.drop_append_eq_append_drop] at hp
  rcases em (d1.drop i = []) with hD | hD
  · rw [hD, List.nil_append, List.drop_append_eq_append_drop] at hp
    have hw' : n <+: w.drop (i - d1.length) :=
      prefix_append_dots (fun c hc => hd2 c (List.drop_subset _ _ hc)) hn hp
    exact List.IsInfix.trans (List.IsPrefix.isInfix hw')
      (List.IsSuffix.isInfix (List.drop_suffix _ w))
  · exact absurd hp
      (fun hp => prefix_cons_dot hD (fun c hc => hd1 c (List.drop_subset _ _ hc)) hn hne hp)

theorem occursIn_dots_wrap {kw w d1 d2 : List Char} (hd1 : ∀ c ∈ d1, c = '.')
    (hd2 : ∀ c ∈ d2, c = '.') (hkw : ('.' : Char) ∉ kw) :
    occursIn kw (d1 ++ (w ++ d2)) = occursIn kw w := by
  unfold occursIn containsSub
  rw [decide_eq_decide]
  rw [lower_append, lower_append]
  constructor
  · intro h
    exact infix_dots_elim (lower_all_dots hd1) (lower_all_dots hd2)
      (dot_not_mem_lower hkw) h
  · rintro ⟨s, t, hw⟩
    exact ⟨lower d1 ++ s, t ++ lower d2, by rw [← hw]; simp [List.append_assoc]⟩

theorem occursIn_decorate {kw text : List Char} {s e : Nat}
    (hkw : ('.' : Char) ∉ kw) :
    occursIn kw (decorate text s e) = occursIn kw ((text.take e).drop s) := by
  have hnil : ∀ c ∈ ([] : List Char), c = '.' := by simp
  have hdots : ∀ c ∈ dots, c = '.' := by decide
  unfold decorate
  by_cases h2 : e < text.length
  · rw [if_pos h2]
    by_cases h1 : 0 < s
    · rw [if_pos h1, List.append_assoc]
      exact occursIn_dots_wrap hdots hdots hkw
    · rw [if_neg h1]
      have hsh : (text.take e).drop s ++ dots =
          [] ++ ((text.take e).drop s ++ dots) := by simp
      rw [hsh]
      exact occursIn_dots_wrap hnil hdots hkw
  · rw [if_neg h2]
    by_cases h1 : 0 < s
    · rw [if_pos h1]
      have hsh : dots ++ (text.take e).drop s =
          dots ++ ((text.take e).drop s ++ []) := by simp
      rw [hsh]
      exact occursIn_dots_wrap hdots hnil hkw
    · rw [if_neg h1]

theorem decorate_ne_nil {text : List Char} (htext : text ≠ []) (s e : Nat) :
    decorate text s e ≠ [] := by
  unfold decorate
  by_cases h2 : e < text.length
  · rw [if_pos h2]
    intro hc
    exact absurd (List.append_eq_nil.mp hc).2 (by simp [dots])
  · rw [if_neg h2]
    by_cases h1 : 0 < s
    · rw [if_pos h1]
      intro hc
      exact absurd (List.append_eq_nil.mp hc).1 (by simp [dots])
    · rw [if_neg h1]
      have hs : s = 0 := by omega
      have hel : text.length ≤ e := le_of_not_lt h2
      rw [hs, List.drop_zero, List.take_of_length_le hel]
      exact htext

theorem finalWindow_eq (text : List Char) (keywords : List (List Char)) (r : Nat) :
    finalWindow text keywords r =
      (if coveredCount text keywords r < keywords.length
       then windowAt text keywords (2 * r)
       else windowAt text keywords r) := rfl

theorem occursIn_windowSlice_mono {text : List Char} {keywords : List (List Char)}
    {r1 r2 : Nat} (h12 : r1 ≤ r2) {kw : List Char}
    (h : occursIn kw (windowSlice text keywords r1) = true) :
    occursIn kw (windowSlice text keywords r2) = true := by
  unfold occursIn containsSub at h ⊢
  rw [decide_eq_true_iff] at h ⊢
  unfold windowSlice lower at h ⊢
  rw [List.map_drop, List.map_take] at h ⊢
  refine List.IsInfix.trans h (slice_infix_slice ?_ ?_)
  · exact Nat.sub_le_sub_left h12 _
  · exact min_le_min (le_refl _) (Nat.add_le_add_left h12 _)

theorem coveredCount_mono {text : List Char} {keywords : List (List Char)}
    {r1 r2 : Nat} (h12 : r1 ≤ r2) :
    coveredCount text keywords r1 ≤ coveredCount text keywords r2 :=
  List.countP_mono_left fun _ _ h => occursIn_windowSlice_mono h12 h

theorem finalCoveredCount_mono {text : List Char} {keywords : List (List Char)}
    {r1 r2 : Nat} (h12 : r1 ≤ r2) :
    finalCoveredCount text keywords r1 ≤ finalCoveredCount text keywords r2 := by
  unfold finalCoveredCount
  by_cases h1 : coveredCount text keywords r1 < keywords.length
  · rw [if_pos h1]
    by_cases h2 : coveredCount text keywords r2 < keywords.length
    · rw [if_pos h2]
      exact coveredCount_mono (by omega)
    · rw [if_neg h2]
      exact le_trans (List.countP_le_length _) (le_of_not_lt h2)
  · have h2 : ¬ coveredCount text keywords r2 < keywords.length :=
      fun hc => h1 (lt_of_le_of_lt (coveredCount_mono h12) hc)
    rw [if_neg h1, if_neg h2]
    exact coveredCount_mono h12

theorem score_decorate {text : List Char} {keywords : List (List Char)}
    (htext : text ≠ []) (hks : keywords ≠ [])
    (hdot : ∀ kw ∈ keywords, ('.' : Char) ∉ kw) (s e : Nat) :
    calculate_keyword_score (decorate text s e) keywords =
      round1 (((keywords.countP fun kw =>
          occursIn kw ((text.take e).drop s) : Nat) : ℚ) /
        (keywords.length : ℚ) * 100) := by
  unfold calculate_keyword_score
  rw [if_neg (by push_neg; exact ⟨decorate_ne_nil htext s e, hks⟩)]
  rw [List.countP_congr fun kw hkw => by rw [occursIn_decorate (hdot kw hkw)]]

theorem score_extract_main {text : List Char} {keywords : List (List Char)}
    (r : Nat) (htext : text ≠ []) (hks : keywords ≠ [])
    (hdot : ∀ kw ∈ keywords, ('.' : Char) ∉ kw)
    (hps : keywordPositions text keywords ≠ []) :
    calculate_keyword_score (extract_text_by_characters text keywords r) keywords =
      round1 (((finalCoveredCount text keywords r : Nat) : ℚ) /
        (keywords.length : ℚ) * 100) := by
  unfold extract_text_by_characters
  rw [if_neg (by push_neg; exact ⟨htext, hks⟩), if_neg hps, finalWindow_eq,
    finalCoveredCount]
  by_cases hcov : coveredCount text keywords r < keywords.length
  · rw [if_pos hcov, if_pos hcov]
    exact score_decorate htext hks hdot _ _
  · rw [if_neg hcov, if_neg hcov]
    exact score_decorate htext hks hdot _ _

/-- C7 (amended): for keyword lists in which no keyword contains the
character `'.'`, widening the radius never decreases the keyword coverage
score of the extracted window. -/
theorem extract_score_monotone (text : List Char) (keywords : List (List Char))
    (r1 r2 : Nat) (hdot : ∀ kw ∈ keywords, ('.' : Char) ∉ kw) (h12 : r1 ≤ r2) :
    calculate_keyword_score (extract_text_by_characters text keywords r1) keywords ≤
      calculate_keyword_score (extract_text_by_characters text keywords r2) keywords := by
  rcases em (text = [] ∨ keywords = []) with he | he
  · unfold extract_text_by_characters
    rw [if_pos he, if_pos he]
  · rcases em (keywordPositions text keywords = []) with hps | hps
    · unfold extract_text_by_characters
      rw [if_neg he, if_neg he, if_pos hps, if_pos hps]
    · push_neg at he
      rw [score_extract_main r1 he.1 he.2 hdot hps,
        score_extract_main r2 he.1 he.2 hdot hps]
      apply round1_mono
      have hn : (0 : ℚ) < (keywords.length : ℚ) := by
        have h0 : 0 < keywords.length := List.length_pos.mpr he.2
        exact_mod_cast h0
      have hc : ((finalCoveredCount text keywords r1 : Nat) : ℚ) ≤
          ((finalCoveredCount text keywords r2 : Nat) : ℚ) := by
        exact_mod_cast finalCoveredCount_mono h12
      gcongr

/-- Witness for (amended) C7 at a concrete input. -/
theorem extract_score_monotone_witness :
    (∀ kw ∈ [['a']], ('.' : Char) ∉ kw) ∧ 1 ≤ 2 ∧
      calculate_keyword_score (extract_text_by_characters ['a', 'b'] [['a']] 1) [['a']] ≤
        calculate_keyword_score (extract_text_by_characters ['a', 'b'] [['a']] 2) [['a']] :=
  ⟨by decide, by decide,
    extract_score_monotone ['a', 'b'] [['a']] 1 2 (by decide) (by decide)⟩

/-- Counterexample to C7 as stated: with keyword list `["e", ".."]` on a text
containing `"e"` but no dot, the radius-1 extraction carries ellipses (so
`".."` matches inside them, score `100.0`), while the radius-100 extraction is
the whole text without ellipses (score `50.0`): the score strictly decreases
although the radius grew. -/
theorem extract_score_not_monotone :
    (1 : Nat) ≤ 100 ∧
      calculate_keyword_score
          (extract_text_by_characters
            (List.replicate 10 'a' ++ 'e' :: List.replicate 10 'a')
            [['e'], ['.', '.']] 100)
          [['e'], ['.', '.']] <
        calculate_keyword_score
          (extract_text_by_characters
            (List.replicate 10 'a' ++ 'e' :: List.replicate 10 'a')
            [['e'], ['.', '.']] 1)
          [['e'], ['.', '.']] := by
  refine ⟨by norm_num, ?_⟩
  have hc1 : ([['e'], ['.', '.']].countP fun kw => occursIn kw
      (extract_text_by_characters
        (List.replicate 10 'a' ++ 'e' :: List.replicate 10 'a')
        [['e'], ['.', '.']] 1)) = 2 := by decide
  have hc2 : ([['e'], ['.', '.']].countP fun kw => occursIn kw
      (extract_text_by_characters
        (List.replicate 10 'a' ++ 'e' :: List.replicate 10 'a')
        [['e'], ['.', '.']] 100)) = 1 := by decide
  have hne1 : extract_text_by_characters
      (List.replicate 10 'a' ++ 'e' :: List.replicate 10 'a')
      [['e'], ['.', '.']] 1 ≠ [] := by decide
  have hne2 : extract_text_by_characters
      (List.replicate 10 'a' ++ 'e' :: List.replicate 10 'a')
      [['e'], ['.', '.']] 100 ≠ [] := by decide
  unfold calculate_keyword_score
  rw [if_neg (by push_neg; exact ⟨hne2, by decide⟩),
    if_neg (by push_neg; exact ⟨hne1, by decide⟩), hc1, hc2]
  norm_num [round1, round_eq]

/-- C10: with `match_all = false` and a non-empty keyword list, every result
has `match_score ∈ (0, 1]`, a non-empty `matched_keywords` equal to the
filter of the input keywords occurring case-insensitively in the result's
document, and at most `k` results are returned. -/
theorem keyword_search_invariants (documents keywords : List (List Char))
    (k : Nat) (jitter : Nat → ℚ) (hk : keywords ≠ []) :
    (∀ r ∈ keyword_search documents keywords false k jitter,
      0 < r.match_score ∧ r.match_score ≤ 1 ∧ r.matched_keywords ≠ [] ∧
        r.matched_keywords = keywords.filter fun kw => occursIn kw r.document) ∧
    (keyword_search documents keywords false k jitter).length ≤ k := by
  constructor
  · intro r hr
    have hr1 : r ∈ (keywordSearchResults documents keywords false).mergeSort
        (keywordSortLe jitter) := List.mem_of_mem_take hr
    rw [List.mem_mergeSort] at hr1
    unfold keywordSearchResults at hr1
    rw [List.mem_filterMap] at hr1
    obtain ⟨p, -, hp⟩ := hr1
    rw [if_neg (by simp)] at hp
    split at hp
    · next hne =>
      rw [Option.some.injEq] at hp
      subst hp
      have hn : 0 < (keywords.length : ℚ) := by
        have h0 : 0 < keywords.length := List.length_pos.mpr hk
        exact_mod_cast h0
      have hm : 0 < (((keywords.filter fun kw => occursIn kw p.2).length : Nat) : ℚ) := by
        have h0 : 0 < (keywords.filter fun kw => occursIn kw p.2).length :=
          List.length_pos.mpr hne
        exact_mod_cast h0
      have hmn : (((keywords.filter fun kw => occursIn kw p.2).length : Nat) : ℚ) ≤
          (keywords.length : ℚ) := by
        exact_mod_cast List.length_filter_le _ _
      exact ⟨div_pos hm hn, (div_le_one hn).mpr hmn, hne, rfl⟩
    · cases hp
  · unfold keyword_search
    rw [List.length_take]
    exact min_le_left _ _

/-- Witness for C10 at a concrete input. -/
theorem keyword_search_invariants_witness :
    (([['a']] : List (List Char)) ≠ []) ∧
      ((∀ r ∈ keyword_search [['a', 'b']] [['a']] false 10 (fun _ => 0),
        0 < r.match_score ∧ r.match_score ≤ 1 ∧ r.matched_keywords ≠ [] ∧
          r.matched_keywords = [['a']].filter fun kw => occursIn kw r.document) ∧
      (keyword_search [['a', 'b']] [['a']] false 10 (fun _ => 0)).length ≤ 10) :=
  ⟨by decide, keyword_search_invariants [['a', 'b']] [['a']] 10 (fun _ => 0) (by decide)⟩

theorem keywordSortLe_trans (jitter : Nat → ℚ) (a b c : KeywordMatch)
    (hab : keywordSortLe jitter a b) (hbc : keywordSortLe jitter b c) :
    keywordSortLe jitter a c := by
  simp only [keywordSortLe, decide_eq_true_eq] at hab hbc ⊢
  rcases hab with h1 | ⟨h1, h1'⟩ <;> rcases hbc with h2 | ⟨h2, h2'⟩
  · exact Or.inl (lt_trans h2 h1)
  · exact Or.inl (by rw [h2]; exact h1)
  · exact Or.inl (by rw [← h1]; exact h2)
  · exact Or.inr ⟨h2.trans h1, le_trans h2' h1'⟩

theorem keywordSortLe_total (jitter : Nat → ℚ) (a b : KeywordMatch) :
    keywordSortLe jitter a b || keywordSortLe jitter b a := by
  simp only [keywordSortLe, Bool.or_eq_true, decide_eq_true_eq]
  rcases lt_trichotomy a.match_score b.match_score with h | h | h
  · exact Or.inr (Or.inl h)
  · rcases le_total (jitter b.vector_id) (jitter a.vector_id) with hj | hj
    · exact Or.inl (Or.inr ⟨h.symm, hj⟩)
    · exact Or.inr (Or.inr ⟨h, hj⟩)
  · exact Or.inl (Or.inl h)

/-- `mergeSort` on a two-element list, determined by one comparison. -/
theorem mergeSort_pair {α : Type} {le : α → α → Bool}
    (trans : ∀ (a b c : α), le a b → le b c → le a c)
    (total : ∀ (a b : α), le a b || le b a) (a b : α) :
    List.mergeSort [a, b] le = if le a b then [a, b] else [b, a] := by
  obtain ⟨l₁, l₂, h1, h2, h3⟩ := List.mergeSort_cons trans total a [b]
  rw [List.mergeSort_singleton] at h2
  by_cases hab : le a b = true
  · rw [if_pos hab]
    rcases l₁ with - | ⟨x, l₁'⟩
    · rw [List.nil_append] at h1 h2
      rw [h1, h2]
    · exfalso
      have hx : x = b := ((List.cons.injEq _ _ _ _).mp h2).1.symm
      have hnot := h3 x (List.mem_cons_self _ _)
      rw [hx, hab] at hnot
      exact absurd hnot (by decide)
  · rw [if_neg hab]
    rcases l₁ with - | ⟨x, l₁'⟩
    · exfalso
      rw [List.nil_append] at h1 h2
      have hs := List.sorted_mergeSort trans total [a, b]
      rw [h1, ← h2] at hs
      have hle : le a b := (List.pairwise_cons.mp hs).1 b (List.mem_cons_self _ _)
      exact absurd hle hab
    · have hx : x = b := ((List.cons.injEq _ _ _ _).mp h2).1.symm
      have hrest : l₁' ++ l₂ = [] := ((List.cons.injEq _ _ _ _).mp h2).2.symm
      obtain ⟨hl1, hl2⟩ := List.append_eq_nil.mp hrest
      subst hx hl1 hl2
      simpa using h1

/-- C2 (code behaviour): with the random tie-break of lines 166-168 modelled
by the jitter draws, two runs of `keyword_search` on the identical corpus,
keyword list and `k` can return the two tied documents in different orders:
keyword ranking is *not* deterministic.  (The spec flags this randomized
tie-break as a policy bug; the claim's required behaviour is violated by the
code.) -/
theorem keyword_search_nondeterministic :
    keyword_search [['a', 'b'], ['a', 'c']] [['a']] false 10
        (fun i => (i : ℚ) / 2) ≠
      keyword_search [['a', 'b'], ['a', 'c']] [['a']] false 10
        (fun i => (1 - (i : ℚ)) / 2) := by
  have hres : keywordSearchResults [['a', 'b'], ['a', 'c']] [['a']] false =
      [⟨((1 : Nat) : ℚ) / ((1 : Nat) : ℚ), [['a']], ['a', 'b'], 0⟩,
       ⟨((1 : Nat) : ℚ) / ((1 : Nat) : ℚ), [['a']], ['a', 'c'], 1⟩] := by rfl
  have hle1 : keywordSortLe (fun i => (i : ℚ) / 2)
      ⟨((1 : Nat) : ℚ) / ((1 : Nat) : ℚ), [['a']], ['a', 'b'], 0⟩
      ⟨((1 : Nat) : ℚ) / ((1 : Nat) : ℚ), [['a']], ['a', 'c'], 1⟩ = false := by
    simp only [keywordSortLe, decide_eq_false_iff_not]
    push_neg
    norm_num
  have hle2 : keywordSortLe (fun i => (1 - (i : ℚ)) / 2)
      ⟨((1 : Nat) : ℚ) / ((1 : Nat) : ℚ), [['a']], ['a', 'b'], 0⟩
      ⟨((1 : Nat) : ℚ) / ((1 : Nat) : ℚ), [['a']], ['a', 'c'], 1⟩ = true := by
    simp only [keywordSortLe, decide_eq_true_eq]
    norm_num
  intro hcontra
  unfold keyword_search at hcontra
  rw [hres, mergeSort_pair (keywordSortLe_trans _) (keywordSortLe_total _),
    mergeSort_pair (keywordSortLe_trans _) (keywordSortLe_total _),
    hle1, hle2, if_neg (by decide), if_pos rfl] at hcontra
  have h0 := congrArg (fun l => l.take 1) hcontra
  simp at h0

theorem seedFold_eq (w : ℚ) (vrs : List VectorMatch)
    (hv : (vrs.map VectorMatch.vector_id).Nodup) :
    vrs.foldl (fun m r => dictSet m (seedEntry w r)) [] = vrs.map (seedEntry w) := by
  have key : ∀ (vrs : List VectorMatch) (m : List HybridMatch),
      (∀ r ∈ vrs, ∀ x ∈ m, x.vector_id ≠ r.vector_id) →
      (vrs.map VectorMatch.vector_id).Nodup →
      vrs.foldl (fun m r => dictSet m (seedEntry w r)) m = m ++ vrs.map (seedEntry w) := by
    intro vrs
    induction vrs with
    | nil => intro m _ _; simp
    | cons r rest ih =>
        intro m hdisj hnodup
        rw [List.foldl_cons]
        have hset : dictSet m (seedEntry w r) = m ++ [seedEntry w r] := by
          unfold dictSet
          rw [if_neg]
          rw [Bool.not_eq_true, List.any_eq_false]
          intro x hx
          simp only [beq_iff_eq]
          exact hdisj r (List.mem_cons_self _ _) x hx
        rw [hset, ih (m ++ [seedEntry w r]) ?_ ?_]
        · rw [List.append_assoc]
          rfl
        · intro r' hr' x hx
          rcases List.mem_append.mp hx with hx | hx
          · exact hdisj r' (List.mem_cons_of_mem _ hr') x hx
          · have hxe : x = seedEntry w r := by simpa using hx
            subst hxe
            show r.vector_id ≠ r'.vector_id
            rw [List.map_cons, List.nodup_cons] at hnodup
            intro hcon
            exact hnodup.1 (hcon ▸ List.mem_map_of_mem _ hr')
        · rw [List.map_cons, List.nodup_cons] at hnodup
          exact hnodup.2
  exact key vrs [] (by simp) hv

theorem kwUpdate_vector_id (w : ℚ) (r : KeywordMatch) (x : HybridMatch) :
    (kwUpdate w r x).vector_id = x.vector_id := rfl

theorem find?_applyKeyword (w : ℚ) (m : List HybridMatch) (r : KeywordMatch) (i : Nat) :
    (applyKeyword w m r).find? (fun x => x.vector_id == i) =
      if r.vector_id = i then
        (match m.find? (fun x => x.vector_id == i) with
         | some e => some (kwUpdate w r e)
         | none => some (kwEntryNew w r))
      else m.find? (fun x => x.vector_id == i) := by
  unfold applyKeyword
  by_cases hany : (m.any fun x => x.vector_id == r.vector_id) = true
  · rw [if_pos hany]
    rw [List.find?_map]
    by_cases hi : r.vector_id = i
    · subst hi
      rw [if_pos rfl]
      have hpe : ((fun x : HybridMatch => x.vector_id == r.vector_id) ∘
          (fun x : HybridMatch =>
            if x.vector_id == r.vector_id then kwUpdate w r x else x)) =
          fun x : HybridMatch => x.vector_id == r.vector_id := by
        funext x
        by_cases hx : (x.vector_id == r.vector_id) = true
        · simp [Function.comp, hx, kwUpdate_vector_id]
        · simp [Function.comp, hx]
      rw [hpe]
      obtain ⟨e, he, hep⟩ := List.any_eq_true.mp hany
      rcases hfe : m.find? (fun x => x.vector_id == r.vector_id) with - | e'
      · rw [List.find?_eq_none] at hfe
        exact absurd hep (hfe e he)
      · rw [hfe, Option.map_some']
        have he'p : (e'.vector_id == r.vector_id) = true := by
          simpa using List.find?_some hfe
        simp only [he'p, if_true]
    · rw [if_neg hi]
      have hpe : ((fun x : HybridMatch => x.vector_id == i) ∘
          (fun x : HybridMatch =>
            if x.vector_id == r.vector_id then kwUpdate w r x else x)) =
          fun x : HybridMatch => x.vector_id == i := by
        funext x
        by_cases hx : (x.vector_id == r.vector_id) = true
        · have hxr : x.vector_id = r.vector_id := by simpa using hx
          have hxi : (x.vector_id == i) = false := by
            rw [beq_eq_false_iff_ne, hxr]
            exact fun hc => hi hc
          simp [Function.comp, hx, kwUpdate_vector_id, hxi, hxr]
        · simp [Function.comp, hx]
      rw [hpe]
      rcases hfe : m.find? (fun x => x.vector_id == i) with - | e'
      · rw [hfe]
        rfl
      · rw [hfe, Option.map_some']
        have he'p : (e'.vector_id == i) = true := by
          simpa using List.find?_some hfe
        have hne : (e'.vector_id == r.vector_id) = false := by
          rw [beq_eq_false_iff_ne]
          rw [beq_iff_eq] at he'p
          rw [he'p]
          exact fun hc => hi hc.symm
        simp [hne]
  · rw [if_neg hany, List.find?_append]
    have hanyf : (m.any fun x => x.vector_id == r.vector_id) = false :=
      Bool.eq_false_iff.mpr hany
    by_cases hi : r.vector_id = i
    · subst hi
      rw [if_pos rfl]
      have hnone : m.find? (fun x => x.vector_id == r.vector_id) = none := by
        rw [List.find?_eq_none]
        intro x hx
        have := List.any_eq_false.mp hanyf x hx
        simpa using this
      rw [hnone, Option.none_or, List.find?_cons]
      have : ((kwEntryNew w r).vector_id == r.vector_id) = true := by
        simp [kwEntryNew]
      rw [this]
    · rw [if_neg hi]
      have hnone2 : [kwEntryNew w r].find? (fun x => x.vector_id == i) = none := by
        rw [List.find?_eq_none]
        intro x hx
        have hxe : x = kwEntryNew w r := by simpa using hx
        subst hxe
        simp [kwEntryNew]
        exact hi
      rw [hnone2, Option.or_none]

theorem idsOf_applyKeyword (w : ℚ) (m : List HybridMatch) (r : KeywordMatch) :
    idsOf (applyKeyword w m r) =
      if (m.any fun x => x.vector_id == r.vector_id) = true then idsOf m
      else idsOf m ++ [r.vector_id] := by
  unfold applyKeyword idsOf
  by_cases h : (m.any fun x => x.vector_id == r.vector_id) = true
  · rw [if_pos h, if_pos h, List.map_map]
    apply List.map_congr_left
    intro x hx
    by_cases hx' : (x.vector_id == r.vector_id) = true
    · simp [Function.comp, hx', kwUpdate_vector_id]
    · simp [Function.comp, hx']
  · rw [if_neg h, if_neg h, List.map_append]
    rfl

theorem nodup_idsOf_applyKeyword (w : ℚ) (m : List HybridMatch) (r : KeywordMatch)
    (h : (idsOf m).Nodup) : (idsOf (applyKeyword w m r)).Nodup := by
  rw [idsOf_applyKeyword]
  by_cases hc : (m.any fun x => x.vector_id == r.vector_id) = true
  · rw [if_pos hc]
    exact h
  · rw [if_neg hc]
    have hnot : r.vector_id ∉ idsOf m := by
      intro hmem
      rw [idsOf, List.mem_map] at hmem
      obtain ⟨x, hx, hxe⟩ := hmem
      have hfx := List.any_eq_false.mp (Bool.eq_false_iff.mpr hc) x hx
      rw [Bool.not_eq_true, beq_eq_false_iff_ne] at hfx
      exact hfx hxe
    rw [List.nodup_append]
    refine ⟨h, List.nodup_singleton _, ?_⟩
    intro a ha hb
    rw [List.mem_singleton] at hb
    exact hnot (hb ▸ ha)

theorem nodup_idsOf_kwFold (w : ℚ) (krs : List KeywordMatch) (m : List HybridMatch)
    (h : (idsOf m).Nodup) : (idsOf (krs.foldl (applyKeyword w) m)).Nodup := by
  induction krs generalizing m with
  | nil => exact h
  | cons r rest ih => exact ih _ (nodup_idsOf_applyKeyword w m r h)

theorem find?_kwFold (w : ℚ) :
    ∀ (krs : List KeywordMatch) (m : List HybridMatch),
    (krs.map KeywordMatch.vector_id).Nodup → ∀ i : Nat,
    (krs.foldl (applyKeyword w) m).find? (fun x => x.vector_id == i) =
      match krs.find? (fun r => r.vector_id == i),
            m.find? (fun x => x.vector_id == i) with
      | some r, some e => some (kwUpdate w r e)
      | some r, none => some (kwEntryNew w r)
      | none, some e => some e
      | none, none => none := by
  intro krs
  induction krs with
  | nil =>
    intro m _ i
    simp only [List.foldl_nil, List.find?_nil]
    cases m.find? (fun x => x.vector_id == i) <;> rfl
  | cons r rest ih =>
    intro m hk i
    rw [List.map_cons, List.nodup_cons] at hk
    rw [List.foldl_cons, ih _ hk.2 i, find?_applyKeyword]
    by_cases hi : r.vector_id = i
    · have hri : (r.vector_id == i) = true := by simpa using hi
      have hrest : rest.find? (fun r' => r'.vector_id == i) = none := by
        rw [List.find?_eq_none]
        intro x hx
        rw [Bool.not_eq_true, beq_eq_false_iff_ne]
        intro hcx
        have hrx : r.vector_id = x.vector_id := by rw [hi, ← hcx]
        exact hk.1 (hrx ▸ List.mem_map_of_mem _ hx)
      rw [hrest, if_pos hi, List.find?_cons, hri]
      all_goals cases hm : m.find? (fun x => x.vector_id == i) <;> simp
    · have hri : (r.vector_id == i) = false := by simpa using hi
      rw [if_neg hi, List.find?_cons, hri]

theorem find?_eq_some_of_mem_nodup :
    ∀ {m : List HybridMatch}, (idsOf m).Nodup →
    ∀ {e : HybridMatch}, e ∈ m →
    m.find? (fun x => x.vector_id == e.vector_id) = some e := by
  intro m
  induction m with
  | nil => intro _ e he; cases he
  | cons x xs ih =>
    intro hnd e he
    rw [idsOf, List.map_cons, List.nodup_cons] at hnd
    rw [List.find?_cons]
    by_cases hx : (x.vector_id == e.vector_id) = true
    · rw [hx]
      rcases List.mem_cons.mp he with rfl | hetail
      · rfl
      · exfalso
        rw [beq_iff_eq] at hx
        exact hnd.1 (hx ▸ List.mem_map_of_mem _ hetail)
    · rw [Bool.eq_false_iff.mpr hx]
      rcases List.mem_cons.mp he with rfl | hetail
      · exact absurd (by simp) hx
      · exact ih hnd.2 hetail

theorem find?_map_seed (w : ℚ) (vrs : List VectorMatch) (i : Nat) :
    (vrs.map (seedEntry w)).find? (fun x => x.vector_id == i) =
      (vrs.find? (fun v => v.vector_id == i)).map (seedEntry w) := by
  rw [List.find?_map]
  congr 1

theorem hybridSortLe_trans (a b c : HybridMatch) (h1 : hybridSortLe a b)
    (h2 : hybridSortLe b c) : hybridSortLe a c := by
  simp only [hybridSortLe, decide_eq_true_eq] at h1 h2 ⊢
  exact le_trans h2 h1

theorem hybridSortLe_total (a b : HybridMatch) :
    hybridSortLe a b || hybridSortLe b a := by
  simp only [hybridSortLe, Bool.or_eq_true, decide_eq_true_eq]
  exact le_total _ _

/-- C1: every fused entry combines `similarity * vector_weight` (`0` when the
id is absent from the vector results) with `match_score * (1 - vector_weight)`
(`0` when absent from the keyword results), with
`final_score = vector_score + keyword_score`, and the fused list is sorted
descending by `final_score`. -/
theorem fuse_spec (vrs : List VectorMatch) (krs : List KeywordMatch) (w : ℚ)
    (hw0 : 0 ≤ w) (hw1 : w ≤ 1)
    (hv : (vrs.map VectorMatch.vector_id).Nodup)
    (hk : (krs.map KeywordMatch.vector_id).Nodup) :
    (∀ e ∈ fuse vrs krs w,
      e.final_score = e.vector_score + e.keyword_score ∧
      (∀ v ∈ vrs, v.vector_id = e.vector_id → e.vector_score = v.similarity * w) ∧
      ((∀ v ∈ vrs, v.vector_id ≠ e.vector_id) → e.vector_score = 0) ∧
      (∀ r ∈ krs, r.vector_id = e.vector_id → e.keyword_score = r.match_score * (1 - w)) ∧
      ((∀ r ∈ krs, r.vector_id ≠ e.vector_id) → e.keyword_score = 0)) ∧
    (fuse vrs krs w).Pairwise (fun a b => b.final_score ≤ a.final_score) := by
  constructor
  · intro e he
    unfold fuse at he
    rw [List.mem_mergeSort, List.mem_map] at he
    obtain ⟨e', he', rfl⟩ := he
    rw [seedFold_eq w vrs hv] at he'
    have hnd : (idsOf (krs.foldl (applyKeyword w) (vrs.map (seedEntry w)))).Nodup := by
      apply nodup_idsOf_kwFold
      rw [idsOf, List.map_map]
      exact hv
    have hfind := find?_eq_some_of_mem_nodup hnd he'
    rw [find?_kwFold w krs _ hk, find?_map_seed] at hfind
    have hfinal : (finalizeEntry e').vector_id = e'.vector_id := rfl
    refine ⟨rfl, ?_, ?_, ?_, ?_⟩
    · intro v' hv' hid
      rw [hfinal] at hid
      cases hkr : krs.find? (fun r => r.vector_id == e'.vector_id) <;>
        cases hvr : vrs.find? (fun v => v.vector_id == e'.vector_id) <;>
        rw [hkr, hvr] at hfind <;>
        simp only [Option.map_some', Option.map_none'] at hfind
      · exact absurd hfind (by simp)
      · next v =>
        have hveq : e' = seedEntry w v := by
          injection hfind with h
          exact h.symm
        have hvid : v.vector_id = e'.vector_id := by
          simpa using List.find?_some hvr
        have hvv : v' = v :=
          List.inj_on_of_nodup_map hv hv' (List.mem_of_find?_eq_some hvr)
            (by rw [hid, hvid])
        subst hvv
        show e'.vector_score = v'.similarity * w
        rw [hveq]
        rfl
      · next r =>
        exfalso
        have hreq : e' = kwEntryNew w r := by
          injection hfind with h
          exact h.symm
        have hrid : r.vector_id = e'.vector_id := by
          simpa using List.find?_some hkr
        have := List.find?_eq_none.mp hvr v' hv'
        rw [Bool.not_eq_true, beq_eq_false_iff_ne] at this
        exact this hid
      · next r v =>
        have hveq : e' = kwUpdate w r (seedEntry w v) := by
          injection hfind with h
          exact h.symm
        have hvid : v.vector_id = e'.vector_id := by
          simpa using List.find?_some hvr
        have hvv : v' = v :=
          List.inj_on_of_nodup_map hv hv' (List.mem_of_find?_eq_some hvr)
            (by rw [hid, hvid])
        subst hvv
        show e'.vector_score = v'.similarity * w
        rw [hveq]
        rfl
    · intro hnone
      cases hkr : krs.find? (fun r => r.vector_id == e'.vector_id) <;>
        cases hvr : vrs.find? (fun v => v.vector_id == e'.vector_id) <;>
        rw [hkr, hvr] at hfind <;>
        simp only [Option.map_some', Option.map_none'] at hfind
      · exact absurd hfind (by simp)
      · next v =>
        exfalso
        have hvid : v.vector_id = e'.vector_id := by
          simpa using List.find?_some hvr
        exact hnone v (List.mem_of_find?_eq_some hvr) hvid
      · next r =>
        have hreq : e' = kwEntryNew w r := by
          injection hfind with h
          exact h.symm
        show e'.vector_score = 0
        rw [hreq]
        rfl
      · next r v =>
        exfalso
        have hvid : v.vector_id = e'.vector_id := by
          simpa using List.find?_some hvr
        exact hnone v (List.mem_of_find?_eq_some hvr) hvid
    · intro r' hr' hid
      rw [hfinal] at hid
      cases hkr : krs.find? (fun r => r.vector_id == e'.vector_id) <;>
        cases hvr : vrs.find? (fun v => v.vector_id == e'.vector_id) <;>
        rw [hkr, hvr] at hfind <;>
        simp only [Option.map_some', Option.map_none'] at hfind
      · exact absurd hfind (by simp)
      · exfalso
        have := List.find?_eq_none.mp hkr r' hr'
        rw [Bool.not_eq_true, beq_eq_false_iff_ne] at this
        exact this hid
      · next r =>
        have hreq : e' = kwEntryNew w r := by
          injection hfind with h
          exact h.symm
        have hrid : r.vector_id = e'.vector_id := by
          simpa using List.find?_some hkr
        have hrr : r' = r :=
          List.inj_on_of_nodup_map hk hr' (List.mem_of_find?_eq_some hkr)
            (by rw [hid, hrid])
        subst hrr
        show e'.keyword_score = r'.match_score * (1 - w)
        rw [hreq]
        rfl
      · next r v =>
        have hveq : e' = kwUpdate w r (seedEntry w v) := by
          injection hfind with h
          exact h.symm
        have hrid : r.vector_id = e'.vector_id := by
          simpa using List.find?_some hkr
        have hrr : r' = r :=
          List.inj_on_of_nodup_map hk hr' (List.mem_of_find?_eq_some hkr)
            (by rw [hid, hrid])
        subst hrr
        show e'.keyword_score = r'.match_score * (1 - w)
        rw [hveq]
        rfl
    · intro hnone
      cases hkr : krs.find? (fun r => r.vector_id == e'.vector_id) <;>
        cases hvr : vrs.find? (fun v => v.vector_id == e'.vector_id) <;>
        rw [hkr, hvr] at hfind <;>
        simp only [Option.map_some', Option.map_none'] at hfind
      · exact absurd hfind (by simp)
      · next v =>
        have hveq : e' = seedEntry w v := by
          injection hfind with h
          exact h.symm
        show e'.keyword_score = 0
        rw [hveq]
        rfl
      · next r =>
        exfalso
        have hrid : r.vector_id = e'.vector_id := by
          simpa using List.find?_some hkr
        exact hnone r (List.mem_of_find?_eq_some hkr) hrid
      · next r v =>
        exfalso
        have hrid : r.vector_id = e'.vector_id := by
          simpa using List.find?_some hkr
        exact hnone r (List.mem_of_find?_eq_some hkr) hrid
  · unfold fuse
    have hs := List.sorted_mergeSort hybridSortLe_trans hybridSortLe_total
      ((krs.foldl (applyKeyword w)
        (vrs.foldl (fun m r => dictSet m (seedEntry w r)) [])).map finalizeEntry)
    exact hs.imp fun {a b} h => by simpa [hybridSortLe] using h

/-- Witness for C1 at a concrete input. -/
theorem fuse_spec_witness :
    (0 : ℚ) ≤ 7 / 10 ∧ (7 : ℚ) / 10 ≤ 1 ∧
      (([⟨1, ['x'], 0⟩] : List VectorMatch).map VectorMatch.vector_id).Nodup ∧
      (([⟨1 / 2, [['k']], ['y'], 1⟩] : List KeywordMatch).map
        KeywordMatch.vector_id).Nodup ∧
      ((∀ e ∈ fuse [⟨1, ['x'], 0⟩] [⟨1 / 2, [['k']], ['y'], 1⟩] (7 / 10),
        e.final_score = e.vector_score + e.keyword_score ∧
        (∀ v ∈ ([⟨1, ['x'], 0⟩] : List VectorMatch), v.vector_id = e.vector_id →
          e.vector_score = v.similarity * (7 / 10)) ∧
        ((∀ v ∈ ([⟨1, ['x'], 0⟩] : List VectorMatch), v.vector_id ≠ e.vector_id) →
          e.vector_score = 0) ∧
        (∀ r ∈ ([⟨1 / 2, [['k']], ['y'], 1⟩] : List KeywordMatch),
          r.vector_id = e.vector_id → e.keyword_score = r.match_score * (1 - 7 / 10)) ∧
        ((∀ r ∈ ([⟨1 / 2, [['k']], ['y'], 1⟩] : List KeywordMatch),
          r.vector_id ≠ e.vector_id) → e.keyword_score = 0)) ∧
      (fuse [⟨1, ['x'], 0⟩] [⟨1 / 2, [['k']], ['y'], 1⟩] (7 / 10)).Pairwise
        (fun a b => b.final_score ≤ a.final_score)) :=
  ⟨by norm_num, by norm_num, by decide, by decide,
    fuse_spec [⟨1, ['x'], 0⟩] [⟨1 / 2, [['k']], ['y'], 1⟩] (7 / 10)
      (by norm_num) (by norm_num) (by decide) (by decide)⟩

theorem mem_kwFold_of_not_mem_ids (w : ℚ) :
    ∀ (krs : List KeywordMatch) (m : List HybridMatch) (e : HybridMatch),
    e ∈ krs.foldl (applyKeyword w) m →
    e.vector_id ∉ krs.map KeywordMatch.vector_id → e ∈ m := by
  intro krs
  induction krs with
  | nil => intro m e he _; exact he
  | cons r rest ih =>
    intro m e he hid
    rw [List.map_cons, List.mem_cons] at hid
    push_neg at hid
    rw [List.foldl_cons] at he
    have he2 : e ∈ applyKeyword w m r :=
      ih _ e he (by simpa using hid.2)
    unfold applyKeyword at he2
    split at he2
    · rw [List.mem_map] at he2
      obtain ⟨x, hx, hxe⟩ := he2
      by_cases hxr : (x.vector_id == r.vector_id) = true
      · rw [if_pos hxr] at hxe
        exfalso
        apply hid.1
        rw [← hxe, kwUpdate_vector_id]
        simpa using hxr
      · rw [if_neg hxr] at hxe
        exact hxe ▸ hx
    · rcases List.mem_append.mp he2 with h | h
      · exact h
      · exfalso
        have hxe : e = kwEntryNew w r := by simpa using h
        exact hid.1 (by rw [hxe]; rfl)

theorem keyword_score_eq_zero_of_mem_seedFold (w : ℚ) :
    ∀ (vrs : List VectorMatch) (m : List HybridMatch) (e : HybridMatch),
    e ∈ vrs.foldl (fun m r => dictSet m (seedEntry w r)) m →
    (∀ x ∈ m, x.keyword_score = 0 ∧ x.matched_keywords = []) →
    e.keyword_score = 0 ∧ e.matched_keywords = [] := by
  intro vrs
  induction vrs with
  | nil => intro m e he hm; exact hm e he
  | cons r rest ih =>
    intro m e he hm
    rw [List.foldl_cons] at he
    refine ih _ e he ?_
    intro x hx
    unfold dictSet at hx
    split at hx
    · rw [List.mem_map] at hx
      obtain ⟨x', hx', hxe⟩ := hx
      by_cases hc : (x'.vector_id == (seedEntry w r).vector_id) = true
      · rw [if_pos hc] at hxe
        rw [← hxe]
        exact ⟨rfl, rfl⟩
      · rw [if_neg hc] at hxe
        exact hxe ▸ hm x' hx'
    · rcases List.mem_append.mp hx with h | h
      · exact hm x h
      · have hxe : x = seedEntry w r := by simpa using h
        rw [hxe]
        exact ⟨rfl, rfl⟩

/-- C9: in hybrid mode the keyword provider is called with its default limit
of 10; any hybrid entry whose `vector_id` is not among the (at most 10)
keyword-search results has `keyword_score = 0` and empty `matched_keywords`,
regardless of the requested result count `k`. -/
theorem hybrid_search_keyword_cap (vrs : List VectorMatch)
    (documents keywords : List (List Char)) (k : Nat) (w : ℚ) (jitter : Nat → ℚ) :
    ∀ e ∈ hybrid_search vrs documents keywords k w jitter,
      e.vector_id ∉ (keyword_search documents keywords false 10 jitter).map
        KeywordMatch.vector_id →
      e.keyword_score = 0 ∧ e.matched_keywords = [] := by
  intro e he hnot
  unfold hybrid_search at he
  have he2 : e ∈ fuse vrs (keyword_search documents keywords false 10 jitter) w :=
    List.mem_of_mem_take he
  unfold fuse at he2
  rw [List.mem_mergeSort, List.mem_map] at he2
  obtain ⟨e', he', rfl⟩ := he2
  have hid : (finalizeEntry e').vector_id = e'.vector_id := rfl
  rw [hid] at hnot
  have he3 := mem_kwFold_of_not_mem_ids w _ _ e' he' hnot
  have hprops := keyword_score_eq_zero_of_mem_seedFold w vrs [] e' he3 (by simp)
  exact hprops

/-- Witness for C9 at a concrete input: keyword `"z"` matches no document, so
the single vector-seeded entry keeps `keyword_score = 0`. -/
theorem hybrid_search_keyword_cap_witness :
    (⟨1 * (7 / 10), 0, ['x'], 0, [], 1 * (7 / 10) + 0⟩ : HybridMatch) ∈
        hybrid_search [⟨1, ['x'], 0⟩] [['a']] [['z']] 5 (7 / 10) (fun _ => 0) ∧
      (0 : Nat) ∉ (keyword_search [['a']] [['z']] false 10 (fun _ => 0)).map
        KeywordMatch.vector_id ∧
      ((⟨1 * (7 / 10), 0, ['x'], 0, [], 1 * (7 / 10) + 0⟩ :
          HybridMatch).keyword_score = 0 ∧
        (⟨1 * (7 / 10), 0, ['x'], 0, [], 1 * (7 / 10) + 0⟩ :
          HybridMatch).matched_keywords = []) := by
  have hkw : keyword_search [['a']] [['z']] false 10 (fun _ => 0) = [] := by
    unfold keyword_search
    have h1 : keywordSearchResults [['a']] [['z']] false = [] := rfl
    rw [h1, List.mergeSort_nil, List.take_nil]
  have hmem : (⟨1 * (7 / 10), 0, ['x'], 0, [], 1 * (7 / 10) + 0⟩ : HybridMatch) ∈
      hybrid_search [⟨1, ['x'], 0⟩] [['a']] [['z']] 5 (7 / 10) (fun _ => 0) := by
    unfold hybrid_search
    rw [hkw]
    unfold fuse
    rw [List.foldl_nil]
    have h2 : ([⟨1, ['x'], 0⟩] : List VectorMatch).foldl
        (fun m r => dictSet m (seedEntry (7 / 10) r)) [] = [seedEntry (7 / 10) ⟨1, ['x'], 0⟩] := rfl
    rw [h2, List.map_cons, List.map_nil, List.mergeSort_singleton]
    show _ ∈ List.take 5 [finalizeEntry (seedEntry (7 / 10) ⟨1, ['x'], 0⟩)]
    rw [List.take_cons]
    · exact List.mem_cons_self _ _
    · omega
  refine ⟨hmem, ?_, ?_⟩
  · rw [hkw]
    simp
  · exact hybrid_search_keyword_cap [⟨1, ['x'], 0⟩] [['a']] [['z']] 5 (7 / 10)
      (fun _ => 0) _ hmem (by rw [hkw]; simp)

theorem isDuplicate_iff (acc : List Rect) (o : Rect) :
    isDuplicate acc o = true ↔
      ∃ e ∈ acc, |o.x0 - e.x0| < 5 ∧ |o.y0 - e.y0| < 5 := by
  unfold isDuplicate
  rw [List.any_eq_true]
  constructor
  · rintro ⟨e, he, hp⟩
    exact ⟨e, he, of_decide_eq_true hp⟩
  · rintro ⟨e, he, hp⟩
    exact ⟨e, he, decide_eq_true hp⟩

/-- C8: an occurrence is accepted exactly when no *already-accepted*
occurrence's top-left corner is within the 5-unit tolerance in both axes;
in particular of two occurrences within 4 units of each other only the
earlier-arriving one is kept. -/
theorem dedupe_spec :
    (∀ (occs : List Rect) (o : Rect),
      dedupe (occs ++ [o]) =
        if ∃ e ∈ dedupe occs, |o.x0 - e.x0| < 5 ∧ |o.y0 - e.y0| < 5
        then dedupe occs else dedupe occs ++ [o]) ∧
    (∀ a b : Rect, |a.x0 - b.x0| ≤ 4 → |a.y0 - b.y0| ≤ 4 →
      dedupe [a, b] = [a]) := by
  constructor
  · intro occs o
    unfold dedupe
    rw [List.foldl_append, List.foldl_cons, List.foldl_nil]
    by_cases hc : isDuplicate (occs.foldl
        (fun acc inst => if isDuplicate acc inst then acc else acc ++ [inst]) []) o = true
    · rw [if_pos hc, if_pos ((isDuplicate_iff _ _).mp hc)]
    · rw [if_neg hc, if_neg (fun he => hc ((isDuplicate_iff _ _).mpr he))]
  · intro a b hx hy
    have h1 : isDuplicate [] a = false := rfl
    have h2 : isDuplicate [a] b = true := by
      unfold isDuplicate
      simp only [List.any_cons, List.any_nil, Bool.or_false]
      rw [decide_eq_true_eq]
      constructor
      · calc |b.x0 - a.x0| = |a.x0 - b.x0| := abs_sub_comm _ _
          _ ≤ 4 := hx
          _ < 5 := by norm_num
      · calc |b.y0 - a.y0| = |a.y0 - b.y0| := abs_sub_comm _ _
          _ ≤ 4 := hy
          _ < 5 := by norm_num
    show List.foldl _ [] [a, b] = [a]
    rw [List.foldl_cons, if_neg (by rw [h1]; exact Bool.false_ne_true),
      List.nil_append, List.foldl_cons, if_pos h2, List.foldl_nil]

/-- Witness for C8 at a concrete input. -/
theorem dedupe_spec_witness :
    |(3 : ℚ) - 0| ≤ 4 ∧ |(2 : ℚ) - 0| ≤ 4 ∧
      dedupe [⟨3, 2, 13, 12⟩, ⟨0, 0, 10, 10⟩] = [⟨3, 2, 13, 12⟩] :=
  ⟨by rw [abs_sub_le_iff]; norm_num, by rw [abs_sub_le_iff]; norm_num,
    dedupe_spec.2 ⟨3, 2, 13, 12⟩ ⟨0, 0, 10, 10⟩
      (by show |(3 : ℚ) - 0| ≤ 4; rw [abs_sub_le_iff]; norm_num)
      (by show |(2 : ℚ) - 0| ≤ 4; rw [abs_sub_le_iff]; norm_num)⟩

/-- Counterexample to C5 as stated: with an empty keyword list and a 501
character text the function returns the full untruncated text, not the first
500 characters. -/
theorem extract_sentences_fallback_counterexample :
    extract_sentences_with_keywords (List.replicate 501 'x') [] 0 =
        List.replicate 501 'x' ∧
      500 < (extract_sentences_with_keywords (List.replicate 501 'x') [] 0).length := by
  have h : extract_sentences_with_keywords (List.replicate 501 'x') [] 0 =
      List.replicate 501 'x' := by
    unfold extract_sentences_with_keywords
    rw [if_pos (Or.inr rfl)]
  refine ⟨h, ?_⟩
  rw [h, List.length_replicate]
  omega

/-- C5 (amended): when the keyword list is empty, or sentence segmentation
yields no usable sentence (every fragment empty or of length at most 2),
`extract_sentences_with_keywords` returns the original text unchanged —
possibly longer than 500 characters; the 500-character truncation happens
only in the no-matching-sentence branch. -/
theorem extract_sentences_fallback (text : List Char)
    (keywords : List (List Char)) (context_sentences : Nat)
    (h : keywords = [] ∨ processedSentences text = []) :
    extract_sentences_with_keywords text keywords context_sentences = text := by
  unfold extract_sentences_with_keywords
  rcases h with h | h
  · rw [if_pos (Or.inr h)]
  · rcases em (text = [] ∨ keywords = []) with he | he
    · rw [if_pos he]
    · rw [if_neg he, if_pos h]

/-- Witness for (amended) C5 at a concrete input: `"ab"` yields the single
fragment `"ab"` of length 2, which is dropped as unusable. -/
theorem extract_sentences_fallback_witness :
    ((([['a']] : List (List Char)) = [] ∨
        processedSentences ['a', 'b'] = []) ∧
      extract_sentences_with_keywords ['a', 'b'] [['a']] 1 = ['a', 'b']) :=
  ⟨Or.inr (by decide), extract_sentences_fallback ['a', 'b'] [['a']] 1 (Or.inr (by decide))⟩

end RoadSearch

